import Mathlib

/-!
Shallow embedding of the stylelint plugin rule
`csstools/value-no-unknown-custom-properties` (src/index.js) together with the
theorems that settle the specification claims.

Modelling conventions:

* JavaScript objects used as name→value dictionaries are modelled as
  association lists (`Mapping`) in which the *last* binding of a key wins;
  `Object.assign target source` (which writes every key of `source` over
  `target`) is then list append.
* Asynchronous file IO is abstracted by passing the already-fetched result of
  the read (an `Option`, `none` meaning the read / parse / resolution failed)
  to the function that consumed it in the JavaScript code.
* The value syntax tree produced by the external `postcss-values-parser`
  library is the inductive type `VNode`, carrying exactly the fields the
  plugin reads: `type`/`name`/`nodes` for function nodes and
  `value`/`isVariable` for word nodes.
* A thrown JavaScript `TypeError` (reading `.isVariable` of `undefined` in
  `isVarFunction`) is made explicit: fallible computations return `Except` or
  pair their result with an error flag.
* The recursion of `validateValueAST` is not structural (it recurses into a
  *filtered* list of fallback nodes), so it is defined through a fuel
  parameter that is always instantiated with a size measure of the input,
  which is proved sufficient (`validateGo_congr`); this keeps every
  definition kernel-computable.
-/

namespace ValueNoUnknownCustomProps

/-- A JS object used as a name→value dictionary. Later bindings shadow
earlier ones (see `getKey`). -/
abbrev Mapping := List (String × String)

/-- `Object.assign target source`: every key of `source` is written over
`target`; with last-binding-wins lookup this is list append. -/
def objectAssign (target source : Mapping) : Mapping := target ++ source

/-- Property lookup on a JS object: the last binding for `key` wins. -/
def getKey : Mapping → String → Option String
  | [], _ => none
  | p :: rest, key =>
    match getKey rest key with
    | some v => some v
    | none => if p.1 == key then some p.2 else none

/-- The JS `key in object` membership test. -/
def hasKey (m : Mapping) (key : String) : Bool := m.any (fun p => p.1 == key)

/-! ## The value syntax tree (interface of `postcss-values-parser`) -/

/-- A node of the parsed value syntax tree, with the fields the plugin
reads: function nodes have a `name` and child `nodes`; word nodes have a
string `value` and an `isVariable` flag; punctuation nodes (commas) have
only a `value`. -/
inductive VNode where
  | func (name : String) (nodes : List VNode)
  | word (value : String) (isVariable : Bool)
  | punct (value : String)

mutual

/-- Size of a value-syntax node, used as fuel for `validateValueAST`. -/
def vsize : VNode → Nat
  | .func _ ns => 1 + vsizeL ns
  | .word _ _ => 1
  | .punct _ => 1

/-- Total size of a list of value-syntax nodes. -/
def vsizeL : List VNode → Nat
  | [] => 0
  | n :: rest => vsize n + vsizeL rest

end

/-- The `.isVariable` flag of a node; `undefined` (hence falsy) on
non-word nodes. -/
def isVariableOf : VNode → Bool
  | .word _ isVar => isVar
  | _ => false

/-- The `.value` field of a node; the plugin only ever reads the `value`
of a word node (the first child of a `var()` call it has already checked
to be a variable token). -/
def valueOf : VNode → String
  | .word v _ => v
  | .punct v => v
  | .func _ _ => ""

/-- src/index.js line 274:
`node => node.type === 'func' && node.name === 'var' && node.nodes[0].isVariable`.
The conjunction short-circuits, so `node.nodes[0]` is only read when the node
is a function named `var`; if that function has no child nodes the read of
`.isVariable` on `undefined` throws a `TypeError`, modelled as
`Except.error`. -/
def isVarFunction : VNode → Except Unit Bool
  | .func name ns =>
    if name == "var" then
      match ns with
      | [] => Except.error ()
      | first :: _ => Except.ok (isVariableOf first)
    else Except.ok false
  | _ => Except.ok false

/-- `fallbacks.filter(isVarFunction)`: JS `Array.prototype.filter` applies the
predicate left to right and a thrown exception aborts the whole filter. -/
def filterVarFunctions : List VNode → Except Unit (List VNode)
  | [] => Except.ok []
  | n :: rest =>
    match isVarFunction n with
    | Except.error e => Except.error e
    | Except.ok b =>
      match filterVarFunctions rest with
      | Except.error e => Except.error e
      | Except.ok fs => Except.ok (if b then n :: fs else fs)

/-! ## Diagnostics -/

/-- A reported diagnostic: the formatted message and the offending word
(the other fields of `stylelint.utils.report` only carry source plumbing). -/
structure Diagnostic where
  message : String
  word : String
deriving DecidableEq

/-- src/index.js line 212: `messages.unexpected`. -/
def messagesUnexpected (name prop : String) : String :=
  "Unexpected custom property \"" ++ name ++ "\" inside declaration \"" ++ prop ++ "\"."

/-- The diagnostic reported for an unknown custom property `name` inside the
declaration of property `prop` (`word: String(propertyName)`). -/
def unexpectedDiag (name prop : String) : Diagnostic :=
  ⟨messagesUnexpected name prop, name⟩

/-! ## validateValueAST (src/index.js lines 227-271) -/

/-- The body of the `forEach` in `validateValueAST`, for a single node,
abstracted over the recursive re-entry `recurse` (which receives the node
list of the object the JS code recurses into).  Mirrors:

* `isVarFunction(node)` inlined with its short-circuit: a function named
  `var` with no children throws — `([], true)`;
* for a satisfied reference (`propertyName in customProperties`) nothing
  happens and fallbacks are not visited;
* for an unknown name with fallbacks, the fallbacks
  (`node.nodes` minus the first two entries) are filtered to the
  `var()`-shaped ones (a throwing filter aborts) and recursed into;
* for an unknown name without fallbacks, `messages.unexpected` is reported;
* every non-`var`-function node is recursed into through its children
  (absent `nodes` on word/punctuation nodes means a no-op). -/
def validateStep (recurse : List VNode → List Diagnostic × Bool) (cp : Mapping)
    (prop : String) : VNode → List Diagnostic × Bool
  | VNode.word _ _ => ([], false)
  | VNode.punct _ => ([], false)
  | VNode.func name ns =>
    if name == "var" then
      match ns with
      | [] => ([], true)
      | first :: _ =>
        if isVariableOf first then
          if hasKey cp (valueOf first) then ([], false)
          else if (ns.drop 2).isEmpty then ([unexpectedDiag (valueOf first) prop], false)
          else
            match filterVarFunctions (ns.drop 2) with
            | Except.error _ => ([], true)
            | Except.ok fs => recurse fs
        else recurse ns
    else recurse ns

/-- Fuel-indexed form of `validateValueAST`, acting on the `nodes` list of
the ast object it receives.  The node list is walked in order; a node whose
step aborts (thrown `TypeError`) stops the walk, keeping the diagnostics
already reported.  All recursive calls use one unit of fuel; fuel of at
least `vsizeL` of the list never runs out (`validateGo_congr`). -/
def validateGo (cp : Mapping) (prop : String) : Nat → List VNode → List Diagnostic × Bool
  | _, [] => ([], false)
  | 0, _ :: _ => ([], true)
  | fuel + 1, node :: rest =>
    let step := validateStep (fun l => validateGo cp prop fuel l) cp prop node
    if step.2 then (step.1, true)
    else
      let r := validateGo cp prop fuel rest
      (step.1 ++ r.1, r.2)

/-- `validateValueAST` applied to the node list of an ast, returning the
reported diagnostics in order together with an error flag that is `true`
exactly when the walk aborted with a thrown `TypeError`. -/
def validateValueAST (cp : Mapping) (prop : String) (ns : List VNode) : List Diagnostic × Bool :=
  validateGo cp prop (Nat.succ (vsizeL ns)) ns

/-! ### Size lemmas -/

theorem vsize_pos (n : VNode) : 1 ≤ vsize n := by
  cases n <;> simp [vsize]

theorem vsizeL_cons (n : VNode) (rest : List VNode) :
    vsizeL (n :: rest) = vsize n + vsizeL rest := by
  simp [vsizeL]

theorem vsizeL_drop (k : Nat) (l : List VNode) : vsizeL (List.drop k l) ≤ vsizeL l := by
  induction l generalizing k with
  | nil => simp [List.drop]
  | cons n rest ih =>
    cases k with
    | zero => simp [List.drop]
    | succ k =>
      have h := ih k
      simp only [List.drop, vsizeL_cons]
      omega

theorem vsizeL_filterVarFunctions {l fs : List VNode}
    (h : filterVarFunctions l = Except.ok fs) : vsizeL fs ≤ vsizeL l := by
  induction l generalizing fs with
  | nil =>
    simp only [filterVarFunctions] at h
    cases h
    exact Nat.le_refl _
  | cons n rest ih =>
    simp only [filterVarFunctions] at h
    cases hvf : isVarFunction n with
    | error e => rw [hvf] at h; cases h
    | ok b =>
      rw [hvf] at h
      cases hrest : filterVarFunctions rest with
      | error e => rw [hrest] at h; cases h
      | ok fs' =>
        rw [hrest] at h
        cases h
        have hle := ih hrest
        cases b with
        | false => simp only [Bool.false_eq_true, if_false]; rw [vsizeL_cons]; omega
        | true => simp only [if_true]; rw [vsizeL_cons, vsizeL_cons]; omega

theorem mem_of_filterVarFunctions {l fs : List VNode}
    (h : filterVarFunctions l = Except.ok fs) : ∀ x ∈ fs, x ∈ l := by
  induction l generalizing fs with
  | nil =>
    simp only [filterVarFunctions] at h
    cases h
    intro x hx
    cases hx
  | cons n rest ih =>
    simp only [filterVarFunctions] at h
    cases hvf : isVarFunction n with
    | error e => rw [hvf] at h; cases h
    | ok b =>
      rw [hvf] at h
      cases hrest : filterVarFunctions rest with
      | error e => rw [hrest] at h; cases h
      | ok fs' =>
        rw [hrest] at h
        cases h
        intro x hx
        cases b with
        | false =>
          simp only [Bool.false_eq_true, if_false] at hx
          exact List.mem_cons_of_mem n (ih hrest x hx)
        | true =>
          simp only [if_true] at hx
          cases hx with
          | head => exact List.mem_cons_self n rest
          | tail _ hx => exact List.mem_cons_of_mem n (ih hrest x hx)

/-! ### Fuel congruence and derived recursion equations -/

theorem validateStep_congr (cp : Mapping) (prop : String)
    (g1 g2 : List VNode → List Diagnostic × Bool) (n : VNode)
    (hg : ∀ l, vsizeL l < vsize n → g1 l = g2 l) :
    validateStep g1 cp prop n = validateStep g2 cp prop n := by
  cases n with
  | word v b => rfl
  | punct v => rfl
  | func name ns =>
    have hns : vsizeL ns < vsize (VNode.func name ns) := by
      simp [vsize]
    simp only [validateStep]
    split
    · split
      · rfl
      · rename_i first tail
        split
        · split
          · rfl
          · split
            · rfl
            · split
              · rfl
              · rename_i fs hfil
                refine hg fs ?_
                have h1 := vsizeL_filterVarFunctions hfil
                have h2 := vsizeL_drop 2 (first :: tail)
                simp only [vsize]
                rw [vsizeL_cons] at h2 ⊢
                omega
        · exact hg _ hns
    · exact hg _ hns

theorem validateGo_congr (cp : Mapping) (prop : String) :
    ∀ f1 f2 l, vsizeL l ≤ f1 → vsizeL l ≤ f2 →
      validateGo cp prop f1 l = validateGo cp prop f2 l := by
  intro f1
  induction f1 with
  | zero =>
    intro f2 l h1 h2
    cases l with
    | nil => cases f2 <;> simp [validateGo]
    | cons n rest =>
      exfalso
      have := vsize_pos n
      rw [vsizeL_cons] at h1
      omega
  | succ f ih =>
    intro f2 l h1 h2
    cases l with
    | nil => cases f2 <;> simp [validateGo]
    | cons n rest =>
      have hpos := vsize_pos n
      rw [vsizeL_cons] at h1 h2
      cases f2 with
      | zero => omega
      | succ f2 =>
        have hstep : validateStep (fun l => validateGo cp prop f l) cp prop n =
            validateStep (fun l => validateGo cp prop f2 l) cp prop n :=
          validateStep_congr cp prop _ _ n (fun l hl => ih f2 l (by omega) (by omega))
        have hrest : validateGo cp prop f rest = validateGo cp prop f2 rest :=
          ih f2 rest (by omega) (by omega)
        simp only [validateGo]
        rw [hstep, hrest]

theorem validateValueAST_nil (cp : Mapping) (prop : String) :
    validateValueAST cp prop [] = ([], false) := rfl

/-- The recursion equation of `validateValueAST` with the fuel normalised
away: the head node's step (recursing through `validateValueAST` itself)
either aborts, or is concatenated with the walk of the remaining nodes. -/
theorem validateValueAST_cons (cp : Mapping) (prop : String) (n : VNode) (rest : List VNode) :
    validateValueAST cp prop (n :: rest) =
      (let step := validateStep (validateValueAST cp prop) cp prop n
       if step.2 then (step.1, true)
       else (step.1 ++ (validateValueAST cp prop rest).1, (validateValueAST cp prop rest).2)) := by
  have hpos := vsize_pos n
  have hstep : validateStep (fun l => validateGo cp prop (vsizeL (n :: rest)) l) cp prop n =
      validateStep (validateValueAST cp prop) cp prop n := by
    refine validateStep_congr cp prop _ _ n (fun l hl => ?_)
    exact validateGo_congr cp prop _ _ l (by rw [vsizeL_cons]; omega) (Nat.le_succ _)
  have hrest : validateGo cp prop (vsizeL (n :: rest)) rest = validateValueAST cp prop rest :=
    validateGo_congr cp prop _ _ rest (by rw [vsizeL_cons]; omega) (Nat.le_succ _)
  show validateGo cp prop (vsizeL (n :: rest) + 1) (n :: rest) = _
  simp only [validateGo]
  rw [hstep, hrest]

/-! ## customPropertyRegExp (src/index.js line 96) and the textual guard -/

/-- JS `\w`: ASCII letters, digits and underscore. -/
def isWordChar (c : Char) : Bool :=
  (decide ('A' ≤ c) && decide (c ≤ 'Z')) || (decide ('a' ≤ c) && decide (c ≤ 'z')) ||
    (decide ('0' ≤ c) && decide (c ≤ '9')) || c == '_'

/-- The test of `customPropertyRegExp = /^--[A-z][\w-]*$/` against a whole
property name.  The character class `[A-z]` spans ASCII codes 65 to 122:
every letter plus the six characters strictly between `Z` and `a`. -/
def customPropertyMatch (s : String) : Bool :=
  match s.data with
  | '-' :: '-' :: c :: rest =>
    (decide ('A' ≤ c) && decide (c ≤ 'z')) && rest.all (fun ch => isWordChar ch || ch == '-')
  | _ => false

/-- Whether `var\([\W\w]+\)` matches at the start of this character list:
the literal `var(`, at least one character, then a `)` after it. -/
def varCallHere : List Char → Bool
  | 'v' :: 'a' :: 'r' :: '(' :: rest => (rest.drop 1).any (fun c => c == ')')
  | _ => false

/-- Scan for `customPropertyReferenceRegExp = /(^|[^\w-])var\([\W\w]+\)/`
(src/index.js line 288): the flag records whether a match may start at the
current position (start of string, or just after a character that is
neither a word character nor a hyphen). -/
def hasVarRefScan : Bool → List Char → Bool
  | _, [] => false
  | allowed, c :: rest =>
    (allowed && varCallHere (c :: rest)) || hasVarRefScan (!(isWordChar c || c == '-')) rest

/-- `hasCustomPropertyReference` (src/index.js line 290): the cheap textual
gate applied to a declaration value before parsing it. -/
def hasCustomPropertyReference (value : String) : Bool :=
  hasVarRefScan true value.data

/-! ## The stylesheet tree (interface of `postcss`) -/

/-- A declaration as the plugin reads it: the property `prop`, the raw
`value` string, and the node list that the external value parser returns
for `value` (`postcssValuesParser.parse(decl.value).nodes`). -/
structure Decl where
  prop : String
  value : String
  valueAST : List VNode

/-- A parsed stylesheet as consumed by the plugin.  `imports` holds, in
document order, the outcome of each `@import` at-rule: `none` when the
at-rule failed to resolve, read or parse (the `.catch(() => {})` on the
resolution promise and the `try`/`catch` of `getCustomPropertiesFromCSSFile$1`
turn every such failure into an empty contribution), `some tree` for a
successfully loaded file.  `decls` holds every declaration of the tree in
`walkDecls` order. -/
inductive CSSTree where
  | mk (imports : List (Option CSSTree)) (decls : List Decl)

mutual

/-- Size of a stylesheet tree, used as fuel for the import-following
resolver. -/
def csize : CSSTree → Nat
  | .mk imports _ => 1 + csizeImports imports

/-- Total size of a list of import outcomes. -/
def csizeImports : List (Option CSSTree) → Nat
  | [] => 0
  | none :: rest => 1 + csizeImports rest
  | some t :: rest => 1 + csize t + csizeImports rest

end

/-! ## getCustomPropertiesFromRoot (src/index.js lines 55-94) -/

/-- The `walkDecls(customPropertyRegExp, ...)` loop: each declaration whose
property name matches the pattern is written over the accumulated mapping
(`customProperties[prop] = decl.value`). -/
def applyOwnDecls (acc : Mapping) : List Decl → Mapping
  | [] => acc
  | d :: rest =>
    applyOwnDecls
      (if customPropertyMatch d.prop then objectAssign acc [(d.prop, d.value)] else acc) rest

/-- Fuel-indexed `getCustomPropertiesFromRoot`: merge the mapping obtained
from every `@import` (in document order, a failed import contributing
nothing), then write the tree's own matching declarations over the result.
Fuel of at least `csize` of the tree never runs out (`gcpfrGo_congr`). -/
def gcpfrGo : Nat → CSSTree → Mapping
  | 0, _ => []
  | fuel + 1, CSSTree.mk imports decls =>
    let importMaps := imports.map (fun i =>
      match i with
      | none => []
      | some t => gcpfrGo fuel t)
    applyOwnDecls (importMaps.foldl objectAssign []) decls

/-- `getCustomPropertiesFromRoot`: all custom properties visible from a
parsed stylesheet, imports first, own declarations overriding. -/
def getCustomPropertiesFromRoot (t : CSSTree) : Mapping :=
  gcpfrGo (Nat.succ (csize t)) t

/-- `getCustomPropertiesFromCSSFile$1` (src/index.js lines 98-108), the
loader used for `@import`-ed files: its `try`/`catch` converts a failed
read or parse (`none`) into an empty mapping. -/
def getCustomPropertiesFromCSSFileImport : Option CSSTree → Mapping
  | none => []
  | some root => getCustomPropertiesFromRoot root

/-! ## Property-file loaders for configured sources (src/index.js 113-143) -/

/-- The object shape the JSON and module loaders extract from: the
`customProperties` field and the `custom-properties` field, each possibly
absent (`Object(object).customProperties` / `Object(object)['custom-properties']`). -/
structure JSObject where
  customProperties : Option Mapping
  customPropertiesDashed : Option Mapping

/-- `getCustomPropertiesFromObject` (src/index.js lines 124-127):
`Object.assign({}, object.customProperties, object['custom-properties'])`;
`Object.assign` ignores an `undefined` source. -/
def getCustomPropertiesFromObject (o : JSObject) : Mapping :=
  objectAssign (objectAssign [] (o.customProperties.getD [])) (o.customPropertiesDashed.getD [])

/-- `getCustomPropertiesFromCSSFile` (src/index.js lines 113-119), the CSS
loader used for configured sources.  It has no `try`/`catch`: a failed read
or parse (`none`) rejects and the failure propagates. -/
def getCustomPropertiesFromCSSFile : Option CSSTree → Except Unit Mapping
  | none => Except.error ()
  | some root => Except.ok (getCustomPropertiesFromRoot root)

/-- `getCustomPropertiesFromJSONFile` (src/index.js lines 132-135):
`readJSON` rejects on a missing or unparseable file (`none`) and no handler
catches it. -/
def getCustomPropertiesFromJSONFile : Option JSObject → Except Unit Mapping
  | none => Except.error ()
  | some o => Except.ok (getCustomPropertiesFromObject o)

/-- `getCustomPropertiesFromJSFile` (src/index.js lines 140-143): a failing
dynamic `require` (`none`) rejects and no handler catches it. -/
def getCustomPropertiesFromJSFile : Option JSObject → Except Unit Mapping
  | none => Except.error ()
  | some o => Except.ok (getCustomPropertiesFromObject o)

/-! ## getCustomPropertiesFromSources (src/index.js lines 148-193) -/

/-- A configured source after the normalisation `map`, carrying the
already-fetched outcome of the IO its loader would perform:

* `inlineMap`: an entry that already has a `customProperties` or
  `custom-properties` field and is passed through unchanged (this also
  covers a promise of, or a factory returning, such an object);
* `cssFile`/`jsFile`/`jsonFile`: a `{type, from}` descriptor whose file
  resolves to the given parse outcome (`none` for a failed read/parse);
* `unknownFile`: a `{type, from}` descriptor of unrecognised type, which
  falls through to `getCustomPropertiesFromObject` on an object with
  neither recognised field. -/
inductive Source where
  | inlineMap (customProperties : Option Mapping) (customPropertiesDashed : Option Mapping)
  | cssFile (resolved : Option CSSTree)
  | jsFile (resolved : Option JSObject)
  | jsonFile (resolved : Option JSObject)
  | unknownFile

/-- The per-source branch of the `reduce` in `getCustomPropertiesFromSources`. -/
def loadSource : Source → Except Unit Mapping
  | .inlineMap cp cpd => Except.ok (getCustomPropertiesFromObject ⟨cp, cpd⟩)
  | .cssFile r => getCustomPropertiesFromCSSFile r
  | .jsFile r => getCustomPropertiesFromJSFile r
  | .jsonFile r => getCustomPropertiesFromJSONFile r
  | .unknownFile => Except.ok (getCustomPropertiesFromObject ⟨none, none⟩)

/-- The `reduce(async (customProperties, source) => Object.assign(await
customProperties, await load(source)), {})`: a strictly sequential
left-to-right fold; the first rejected loader rejects the whole fold and
later sources are not loaded. -/
def foldSources (acc : Mapping) : List Source → Except Unit Mapping
  | [] => Except.ok acc
  | s :: rest =>
    match loadSource s with
    | Except.error e => Except.error e
    | Except.ok m => foldSources (objectAssign acc m) rest

/-- `getCustomPropertiesFromSources` (src/index.js lines 148-193). -/
def getCustomPropertiesFromSources (sources : List Source) : Except Unit Mapping :=
  foldSources [] sources

/-- The merge performed once per stylesheet by the rule callback
(src/index.js line 311): `Object.assign(await customPropertiesPromise,
await getCustomPropertiesFromRoot(root, resolver))`. -/
def finalCustomProperties (sources : List Source) (root : CSSTree) : Except Unit Mapping :=
  match getCustomPropertiesFromSources sources with
  | Except.error e => Except.error e
  | Except.ok cp => Except.ok (objectAssign cp (getCustomPropertiesFromRoot root))

/-! ## validateResult and the rule callback (src/index.js 215-315) -/

/-- `validateDecl`: parse the declaration value (the parse travels with the
declaration, see `Decl.valueAST`) and validate the resulting ast. -/
def validateDecl (cp : Mapping) (d : Decl) : List Diagnostic × Bool :=
  validateValueAST cp d.prop d.valueAST

/-- The `result.root.walkDecls` loop of `validateResult`: every declaration
passing the textual `hasCustomPropertyReference` gate is validated; a
thrown `TypeError` aborts the walk, keeping earlier diagnostics. -/
def walkValidateDecls (cp : Mapping) : List Decl → List Diagnostic × Bool
  | [] => ([], false)
  | d :: rest =>
    if hasCustomPropertyReference d.value then
      let r := validateDecl cp d
      if r.2 then (r.1, true)
      else
        let r2 := walkValidateDecls cp rest
        (r.1 ++ r2.1, r2.2)
    else walkValidateDecls cp rest

/-- `validateResult` (src/index.js lines 276-285). -/
def validateResult (cp : Mapping) : CSSTree → List Diagnostic × Bool
  | .mk _ decls => walkValidateDecls cp decls

/-- One run of the rule callback on a stylesheet, for an enabled and valid
configuration.  `sharedCustomProperties` is the object the memoized
`customPropertiesPromise` has resolved to; `Object.assign` writes the
stylesheet's own resolution into that *same* object and the merged object
is used for validation, so the callback returns both the (mutated) shared
object and the diagnostics. -/
def ruleCallback (sharedCustomProperties : Mapping) (root : CSSTree) :
    Mapping × (List Diagnostic × Bool) :=
  let customProperties :=
    objectAssign sharedCustomProperties (getCustomPropertiesFromRoot root)
  (customProperties, validateResult customProperties root)

/-- Sequential processing of the stylesheets of one lint run against the
shared memoized mapping, threading the mutation performed by each
callback. -/
def lintRun (shared : Mapping) : List CSSTree → List (List Diagnostic × Bool)
  | [] => []
  | root :: rest =>
    let step := ruleCallback shared root
    step.2 :: lintRun step.1 rest

/-! ## Well-formed value asts -/

/-- A value-syntax node in which every function named `var` has at least
one child node, so that `isVarFunction` never reads a field of
`undefined`. -/
inductive Guarded : VNode → Prop where
  | word (v : String) (b : Bool) : Guarded (VNode.word v b)
  | punct (v : String) : Guarded (VNode.punct v)
  | func (name : String) (ns : List VNode) (hvar : name = "var" → ns ≠ [])
      (hns : ∀ n ∈ ns, Guarded n) : Guarded (VNode.func name ns)

/-- The parse of a bare reference `var(name)`: a function node named `var`
whose single child is a variable word. -/
def mkVarRef (name : String) : VNode :=
  VNode.func "var" [VNode.word name true]

/-- Example stylesheet `a { --x: 1 }`: declares a custom property, uses no
`var()` reference. -/
def exA : CSSTree :=
  CSSTree.mk [] [⟨"--x", "1", [VNode.word "1" false]⟩]

/-- Example stylesheet `b { color: var(--x) }`: no imports and no
declaration of `--x` anywhere in it. -/
def exB : CSSTree :=
  CSSTree.mk [] [⟨"color", "var(--x)", [VNode.func "var" [VNode.word "--x" true]]⟩]

/-! ### Lookup lemmas for the mapping model -/

theorem getKey_append (a b : Mapping) (k : String) :
    getKey (a ++ b) k =
      match getKey b k with
      | some v => some v
      | none => getKey a k := by
  induction a with
  | nil =>
    simp only [List.nil_append, getKey]
    cases getKey b k <;> rfl
  | cons p a ih =>
    rw [List.cons_append]
    show (match getKey (a ++ b) k with
      | some v => some v
      | none => if p.1 == k then some p.2 else none) =
      (match getKey b k with
      | some v => some v
      | none =>
        match getKey a k with
        | some v => some v
        | none => if p.1 == k then some p.2 else none)
    rw [ih]
    cases getKey b k <;> cases getKey a k <;> rfl

theorem hasKey_eq_isSome (m : Mapping) (k : String) :
    hasKey m k = (getKey m k).isSome := by
  induction m with
  | nil => rfl
  | cons p m ih =>
    simp only [hasKey, List.any_cons, getKey] at *
    rw [ih]
    cases getKey m k with
    | some v => simp
    | none =>
      simp only [Option.isSome_none, Bool.or_false]
      by_cases hp : (p.1 == k) = true <;> simp [hp]

theorem getKey_append_right {b : Mapping} {k : String} (h : hasKey b k = true) (a : Mapping) :
    getKey (a ++ b) k = getKey b k := by
  rw [getKey_append]
  rw [hasKey_eq_isSome] at h
  cases hb : getKey b k with
  | some v => rfl
  | none => rw [hb] at h; simp at h

theorem getKey_append_left {b : Mapping} {k : String} (h : hasKey b k = false) (a : Mapping) :
    getKey (a ++ b) k = getKey a k := by
  rw [getKey_append]
  rw [hasKey_eq_isSome] at h
  cases hb : getKey b k with
  | some v => rw [hb] at h; simp at h
  | none => rfl

theorem hasKey_append (a b : Mapping) (k : String) :
    hasKey (a ++ b) k = (hasKey a k || hasKey b k) := by
  simp [hasKey, List.any_append]

/-! ### Branch equations of the validator -/

theorem validate_var_known (cp : Mapping) (prop : String) {name : String}
    (hk : hasKey cp name = true) (args rest : List VNode) :
    validateValueAST cp prop (VNode.func "var" (VNode.word name true :: args) :: rest) =
      validateValueAST cp prop rest := by
  rw [validateValueAST_cons]
  simp [validateStep, isVariableOf, valueOf, hk]

theorem validate_var_unknown_nofb (cp : Mapping) (prop : String) {name : String}
    (hk : hasKey cp name = false) (args rest : List VNode) (hargs : args.drop 1 = []) :
    validateValueAST cp prop (VNode.func "var" (VNode.word name true :: args) :: rest) =
      (unexpectedDiag name prop :: (validateValueAST cp prop rest).1,
        (validateValueAST cp prop rest).2) := by
  rw [validateValueAST_cons]
  simp [validateStep, isVariableOf, valueOf, hk, hargs]

theorem validate_var_unknown_fb (cp : Mapping) (prop : String) {name : String}
    (hk : hasKey cp name = false) (args rest fs : List VNode)
    (hne : args.drop 1 ≠ []) (hfil : filterVarFunctions (args.drop 1) = Except.ok fs) :
    validateValueAST cp prop (VNode.func "var" (VNode.word name true :: args) :: rest) =
      (if (validateValueAST cp prop fs).2 then ((validateValueAST cp prop fs).1, true)
       else ((validateValueAST cp prop fs).1 ++ (validateValueAST cp prop rest).1,
         (validateValueAST cp prop rest).2)) := by
  rw [validateValueAST_cons]
  have hfil' : filterVarFunctions args.tail = Except.ok fs := by
    rw [← List.drop_one]; exact hfil
  have hemp : (args.drop 1).isEmpty = false := by
    cases h : args.drop 1 with
    | nil => exact absurd h hne
    | cons x xs => rfl
  have hemp' : args.tail.isEmpty = false := by
    rw [← List.drop_one]; exact hemp
  simp [validateStep, isVariableOf, valueOf, hk, hemp, hemp', hfil, hfil']

theorem filterVarFunctions_all_false {l : List VNode}
    (h : ∀ f ∈ l, isVarFunction f = Except.ok false) :
    filterVarFunctions l = Except.ok [] := by
  induction l with
  | nil => rfl
  | cons n rest ih =>
    simp only [filterVarFunctions]
    rw [h n (List.mem_cons_self n rest), ih (fun f hf => h f (List.mem_cons_of_mem n hf))]
    simp

/-! ### Lemmas about the import-following resolver -/

theorem csize_pos (t : CSSTree) : 1 ≤ csize t := by
  cases t
  simp [csize]

theorem csize_le_of_mem {t : CSSTree} {imports : List (Option CSSTree)}
    (h : some t ∈ imports) : csize t + 1 ≤ csizeImports imports := by
  induction imports with
  | nil => cases h
  | cons i rest ih =>
    rcases List.mem_cons.mp h with heq | hmem
    · cases heq
      simp only [csizeImports]
      omega
    · have := ih hmem
      cases i <;> simp only [csizeImports] <;> omega

theorem gcpfrGo_congr :
    ∀ f1 f2 t, csize t ≤ f1 → csize t ≤ f2 → gcpfrGo f1 t = gcpfrGo f2 t := by
  intro f1
  induction f1 with
  | zero =>
    intro f2 t h1 h2
    have := csize_pos t
    omega
  | succ f ih =>
    intro f2 t h1 h2
    cases t with
    | mk imports decls =>
      have hs := csize_pos (CSSTree.mk imports decls)
      simp only [csize] at h1 h2
      cases f2 with
      | zero => omega
      | succ f2 =>
        simp only [gcpfrGo]
        congr 2
        refine List.map_congr_left (fun i hi => ?_)
        cases i with
        | none => rfl
        | some t' =>
          have hb := csize_le_of_mem hi
          exact ih f2 t' (by omega) (by omega)

/-- `getCustomPropertiesFromRoot` unfolded one level: merge the loader
results of all imports in order, then apply the tree's own declarations. -/
theorem gcpfr_mk (imports : List (Option CSSTree)) (decls : List Decl) :
    getCustomPropertiesFromRoot (CSSTree.mk imports decls) =
      applyOwnDecls
        ((imports.map getCustomPropertiesFromCSSFileImport).foldl objectAssign []) decls := by
  show gcpfrGo (csize (CSSTree.mk imports decls) + 1) (CSSTree.mk imports decls) = _
  simp only [gcpfrGo]
  congr 2
  refine List.map_congr_left (fun i hi => ?_)
  cases i with
  | none => rfl
  | some t' =>
    have hb := csize_le_of_mem hi
    have h1 : csize (CSSTree.mk imports decls) = 1 + csizeImports imports := by
      simp [csize]
    exact gcpfrGo_congr _ _ t' (by omega) (Nat.le_succ _)

theorem applyOwnDecls_append (ds : List Decl) :
    ∀ base : Mapping, applyOwnDecls base ds = base ++ applyOwnDecls [] ds := by
  induction ds with
  | nil => intro base; simp [applyOwnDecls]
  | cons d rest ih =>
    intro base
    by_cases hc : customPropertyMatch d.prop = true
    · simp only [applyOwnDecls, hc, if_true, objectAssign, List.nil_append]
      rw [ih, ih [(d.prop, d.value)]]
      simp [List.append_assoc]
    · simp only [Bool.not_eq_true] at hc
      simp only [applyOwnDecls, hc, Bool.false_eq_true, if_false]
      exact ih base

/-! ### Lemmas about the source fold -/

theorem foldSources_acc (ss : List Source) :
    ∀ acc : Mapping, foldSources acc ss =
      match foldSources [] ss with
      | Except.error e => Except.error e
      | Except.ok m => Except.ok (objectAssign acc m) := by
  induction ss with
  | nil => intro acc; simp [foldSources, objectAssign]
  | cons s rest ih =>
    intro acc
    simp only [foldSources]
    cases loadSource s with
    | error e => rfl
    | ok m =>
      simp only
      rw [ih, ih (objectAssign [] m)]
      cases foldSources [] rest with
      | error e => rfl
      | ok m2 => simp [objectAssign, List.append_assoc]

theorem foldSources_append_single (ss : List Source) (s : Source) :
    ∀ acc : Mapping, foldSources acc (ss ++ [s]) =
      match foldSources acc ss with
      | Except.error e => Except.error e
      | Except.ok m =>
        match loadSource s with
        | Except.error e => Except.error e
        | Except.ok m2 => Except.ok (objectAssign m m2) := by
  induction ss with
  | nil =>
    intro acc
    simp only [List.nil_append, foldSources]
  | cons s0 rest ih =>
    intro acc
    simp only [List.cons_append, foldSources]
    cases loadSource s0 with
    | error e => rfl
    | ok m => exact ih _

/-! ### Guardedness: totality of the validator -/

theorem guarded_isVarFunction {x : VNode} (h : Guarded x) :
    ∃ b, isVarFunction x = Except.ok b := by
  cases h with
  | word v b => exact ⟨false, rfl⟩
  | punct v => exact ⟨false, rfl⟩
  | func name ns hvar hns =>
    simp only [isVarFunction]
    by_cases hn : (name == "var") = true
    · have hne : ns ≠ [] := hvar (by simpa using hn)
      cases ns with
      | nil => exact absurd rfl hne
      | cons first tail => exact ⟨isVariableOf first, by simp [hn]⟩
    · simp only [Bool.not_eq_true] at hn
      exact ⟨false, by simp [hn]⟩

theorem filterVarFunctions_guarded {l : List VNode} (h : ∀ x ∈ l, Guarded x) :
    ∃ fs, filterVarFunctions l = Except.ok fs := by
  induction l with
  | nil => exact ⟨[], rfl⟩
  | cons n rest ih =>
    obtain ⟨b, hb⟩ := guarded_isVarFunction (h n (List.mem_cons_self n rest))
    obtain ⟨fs, hfs⟩ := ih (fun x hx => h x (List.mem_cons_of_mem n hx))
    refine ⟨if b then n :: fs else fs, ?_⟩
    simp only [filterVarFunctions, hb, hfs]

theorem validateGo_total (cp : Mapping) (prop : String) :
    ∀ fuel l, vsizeL l ≤ fuel → (∀ n ∈ l, Guarded n) →
      (validateGo cp prop fuel l).2 = false := by
  intro fuel
  induction fuel with
  | zero =>
    intro l h1 _
    cases l with
    | nil => rfl
    | cons n rest =>
      have := vsize_pos n
      rw [vsizeL_cons] at h1
      omega
  | succ f ih =>
    intro l h1 hg
    cases l with
    | nil => rfl
    | cons n rest =>
      have hpos := vsize_pos n
      rw [vsizeL_cons] at h1
      have hrest : (validateGo cp prop f rest).2 = false :=
        ih rest (by omega) (fun x hx => hg x (List.mem_cons_of_mem n hx))
      have hstep : (validateStep (fun l => validateGo cp prop f l) cp prop n).2 = false := by
        cases hgn : hg n (List.mem_cons_self n rest) with
        | word v b => rfl
        | punct v => rfl
        | func name ns hvar hns =>
          have hsz : vsize (VNode.func name ns) = 1 + vsizeL ns := by
            simp only [vsize]
          simp only [validateStep]
          split
          · rename_i hn
            split
            · exact absurd rfl (hvar (by simpa using hn))
            · rename_i first tail
              have hszc : vsizeL (first :: tail) = vsize first + vsizeL tail := vsizeL_cons _ _
              have hp1 := vsize_pos first
              split
              · split
                · rfl
                · split
                  · rfl
                  · split
                    · rename_i e heq
                      have hgsub : ∀ x ∈ List.drop 2 (first :: tail), Guarded x :=
                        fun x hx => hns x (List.drop_subset 2 (first :: tail) hx)
                      obtain ⟨fs, hfs⟩ := filterVarFunctions_guarded hgsub
                      rw [heq] at hfs
                      cases hfs
                    · rename_i fs hfs
                      have hgsub : ∀ x ∈ List.drop 2 (first :: tail), Guarded x :=
                        fun x hx => hns x (List.drop_subset 2 (first :: tail) hx)
                      have hf := vsizeL_filterVarFunctions hfs
                      have ht := vsizeL_drop 2 (first :: tail)
                      refine ih fs ?_ (fun x hx => hgsub x (mem_of_filterVarFunctions hfs x hx))
                      omega
              · refine ih (first :: tail) ?_ hns
                omega
          · refine ih ns ?_ hns
            omega
      simp only [validateGo, hstep, Bool.false_eq_true, if_false]
      exact hrest

/-! ## Claim theorems -/

/-- Claim C1: in a declaration value made of `var()` references, a
reference whose primary name is a key of the merged mapping produces no
diagnostic, and a reference whose primary name is not a key and has no
fallback argument produces exactly one diagnostic per occurrence, whose
message is exactly
`Unexpected custom property "<name>" inside declaration "<prop>".` and
whose offending word is the unresolved name. -/
theorem c1_var_reference_diagnostics (cp : Mapping) (prop : String) (names : List String) :
    validateValueAST cp prop (names.map mkVarRef) =
      ((names.filter (fun n => !hasKey cp n)).map (fun n => unexpectedDiag n prop), false) ∧
    ∀ name, unexpectedDiag name prop =
      ⟨"Unexpected custom property \"" ++ name ++ "\" inside declaration \"" ++ prop ++
        "\".", name⟩ := by
  constructor
  · induction names with
    | nil => rfl
    | cons n rest ih =>
      rw [List.map_cons]
      simp only [mkVarRef]
      by_cases hk : hasKey cp n = true
      · rw [show ([VNode.word n true] : List VNode) = VNode.word n true :: [] from rfl,
          validate_var_known cp prop hk [] (rest.map mkVarRef), ih]
        simp [List.filter_cons, hk]
      · simp only [Bool.not_eq_true] at hk
        rw [show ([VNode.word n true] : List VNode) = VNode.word n true :: [] from rfl,
          validate_var_unknown_nofb cp prop hk [] (rest.map mkVarRef) rfl, ih]
        simp [List.filter_cons, hk]
  · intro name
    rfl

/-- Claim C2: a `var()` reference with a known primary name is satisfied
without recursing into its fallback arguments, whatever they are (so
`var(--known, var(--unknown))` yields no diagnostic); and
`var(--unknown1, var(--unknown2))` with both names unknown yields exactly
one diagnostic, for the innermost name `--unknown2` only. -/
theorem c2_fallback_short_circuit (cp : Mapping) (prop known n1 n2 : String)
    (args rest : List VNode) :
    (hasKey cp known = true →
      validateValueAST cp prop (VNode.func "var" (VNode.word known true :: args) :: rest) =
        validateValueAST cp prop rest) ∧
    (hasKey cp n1 = false → hasKey cp n2 = false →
      validateValueAST cp prop
        [VNode.func "var" [VNode.word n1 true, VNode.punct ",",
          VNode.func "var" [VNode.word n2 true]]] =
        ([unexpectedDiag n2 prop], false)) := by
  constructor
  · intro hk
    exact validate_var_known cp prop hk args rest
  · intro h1 h2
    have hfil : filterVarFunctions
        (([VNode.punct ",", VNode.func "var" [VNode.word n2 true]] : List VNode).drop 1) =
        Except.ok [VNode.func "var" [VNode.word n2 true]] := rfl
    rw [show ([VNode.word n1 true, VNode.punct ",",
          VNode.func "var" [VNode.word n2 true]] : List VNode) =
        VNode.word n1 true :: [VNode.punct ",", VNode.func "var" [VNode.word n2 true]] from rfl,
      validate_var_unknown_fb cp prop h1 _ [] _ (by simp) hfil,
      show ([VNode.func "var" [VNode.word n2 true]] : List VNode) =
        VNode.func "var" (VNode.word n2 true :: []) :: [] from rfl,
      validate_var_unknown_nofb cp prop h2 [] [] rfl]
    simp [validateValueAST_nil]

/-- Witness for C2 at a concrete mapping: the known-name reference with an
unknown-name fallback produces nothing, and the doubly-unknown nested
reference reports only the innermost name. -/
theorem c2_fallback_short_circuit_witness :
    hasKey [("--known", "v")] "--known" = true ∧
    validateValueAST [("--known", "v")] "color"
      [VNode.func "var" [VNode.word "--known" true, VNode.punct ",",
        VNode.func "var" [VNode.word "--u1" true]]] =
      validateValueAST [("--known", "v")] "color" [] ∧
    validateValueAST [("--known", "v")] "color"
      [VNode.func "var" [VNode.word "--u1" true, VNode.punct ",",
        VNode.func "var" [VNode.word "--u2" true]]] =
      ([unexpectedDiag "--u2" "color"], false) :=
  ⟨rfl,
    (c2_fallback_short_circuit [("--known", "v")] "color" "--known" "--u1" "--u2"
      [VNode.punct ",", VNode.func "var" [VNode.word "--u1" true]] []).1 rfl,
    (c2_fallback_short_circuit [("--known", "v")] "color" "--known" "--u1" "--u2"
      [] []).2 rfl rfl⟩

/-- Claim C3: the configured sources are folded strictly left to right
with key-wise overwrite, so the last configured source defining a name
wins over every earlier one; and the mapping resolved from the stylesheet
being linted is merged last, overwriting every configured source's entry
for the same name. -/
theorem c3_source_precedence (ss : List Source) (s : Source) (m final final2 : Mapping)
    (root : CSSTree) (k : String) :
    (getCustomPropertiesFromSources (ss ++ [s]) =
      (match getCustomPropertiesFromSources ss with
       | Except.error e => Except.error e
       | Except.ok acc =>
         match loadSource s with
         | Except.error e => Except.error e
         | Except.ok m2 => Except.ok (objectAssign acc m2))) ∧
    (loadSource s = Except.ok m → hasKey m k = true →
      getCustomPropertiesFromSources (ss ++ [s]) = Except.ok final →
      getKey final k = getKey m k) ∧
    (finalCustomProperties ss root = Except.ok final2 →
      hasKey (getCustomPropertiesFromRoot root) k = true →
      getKey final2 k = getKey (getCustomPropertiesFromRoot root) k) := by
  refine ⟨foldSources_append_single ss s [], fun hload hkey hfold => ?_, fun hfin hkey => ?_⟩
  · rw [show getCustomPropertiesFromSources (ss ++ [s]) = foldSources [] (ss ++ [s]) from rfl,
      foldSources_append_single ss s []] at hfold
    cases hss : foldSources [] ss with
    | error e => rw [hss] at hfold; cases hfold
    | ok acc =>
      rw [hss, hload] at hfold
      cases hfold
      exact getKey_append_right hkey acc
  · rw [show finalCustomProperties ss root =
        (match getCustomPropertiesFromSources ss with
         | Except.error e => Except.error e
         | Except.ok cp => Except.ok (objectAssign cp (getCustomPropertiesFromRoot root)))
      from rfl] at hfin
    cases hss : getCustomPropertiesFromSources ss with
    | error e => rw [hss] at hfin; cases hfin
    | ok cp =>
      rw [hss] at hfin
      cases hfin
      exact getKey_append_right hkey cp

/-- Witness for C3: two inline sources both defining `--y`, the later one
winning, and a stylesheet defining `--z`, which wins in the final merge. -/
theorem c3_source_precedence_witness :
    (loadSource (Source.inlineMap (some [("--y", "b")]) none) = Except.ok [("--y", "b")] ∧
      hasKey [("--y", "b")] "--y" = true ∧
      getKey [("--y", "a"), ("--y", "b")] "--y" = getKey [("--y", "b")] "--y") ∧
    (hasKey (getCustomPropertiesFromRoot (CSSTree.mk [] [⟨"--z", "0", []⟩])) "--z" = true ∧
      getKey [("--y", "a"), ("--z", "0")] "--z" =
        getKey (getCustomPropertiesFromRoot (CSSTree.mk [] [⟨"--z", "0", []⟩])) "--z") :=
  ⟨⟨rfl, rfl,
    (c3_source_precedence [Source.inlineMap (some [("--y", "a")]) none]
      (Source.inlineMap (some [("--y", "b")]) none) [("--y", "b")]
      [("--y", "a"), ("--y", "b")] [("--y", "a"), ("--z", "0")]
      (CSSTree.mk [] [⟨"--z", "0", []⟩]) "--y").2.1 rfl rfl rfl⟩,
   ⟨rfl,
    (c3_source_precedence [Source.inlineMap (some [("--y", "a")]) none]
      (Source.inlineMap (some [("--y", "b")]) none) [("--y", "b")]
      [("--y", "a"), ("--y", "b")] [("--y", "a"), ("--z", "0")]
      (CSSTree.mk [] [⟨"--z", "0", []⟩]) "--z").2.2 rfl rfl⟩⟩

/-- Claim C4: the import-following resolver first merges the mappings of
the tree's `@import` files and then writes the tree's own matching
declarations (raw values) over them, so a name declared locally always
wins over any imported value. -/
theorem c4_local_over_import (imports : List (Option CSSTree)) (decls : List Decl)
    (k : String) :
    getCustomPropertiesFromRoot (CSSTree.mk imports decls) =
      applyOwnDecls
        ((imports.map getCustomPropertiesFromCSSFileImport).foldl objectAssign []) decls ∧
    (hasKey (applyOwnDecls [] decls) k = true →
      getKey (getCustomPropertiesFromRoot (CSSTree.mk imports decls)) k =
        getKey (applyOwnDecls [] decls) k) := by
  refine ⟨gcpfr_mk imports decls, fun h => ?_⟩
  rw [gcpfr_mk, applyOwnDecls_append]
  exact getKey_append_right h _

/-- Witness for C4: file A declares `--x: 1` and imports file B declaring
`--x: 2`; the merged value for `--x` is `1`. -/
theorem c4_local_over_import_witness :
    hasKey (applyOwnDecls [] [(⟨"--x", "1", []⟩ : Decl)]) "--x" = true ∧
    getKey (getCustomPropertiesFromRoot
      (CSSTree.mk [some (CSSTree.mk [] [⟨"--x", "2", []⟩])] [⟨"--x", "1", []⟩])) "--x" =
      some "1" :=
  ⟨rfl,
    ((c4_local_over_import [some (CSSTree.mk [] [⟨"--x", "2", []⟩])]
      [⟨"--x", "1", []⟩] "--x").2 rfl).trans rfl⟩

/-- Counterexample to claim C5: the three loaders used for configured
sources have no handler, so a failed read / parse / load (`none`)
propagates as an error instead of resolving to an empty mapping. -/
theorem c5_loader_counterexample :
    getCustomPropertiesFromCSSFile none = Except.error () ∧
    getCustomPropertiesFromCSSFile none ≠ Except.ok [] ∧
    getCustomPropertiesFromJSONFile none = Except.error () ∧
    getCustomPropertiesFromJSONFile none ≠ Except.ok [] ∧
    getCustomPropertiesFromJSFile none = Except.error () ∧
    getCustomPropertiesFromJSFile none ≠ Except.ok [] :=
  ⟨rfl, fun h => Except.noConfusion h, rfl, fun h => Except.noConfusion h, rfl,
    fun h => Except.noConfusion h⟩

/-- Claim C5 as amended: only the `@import`-path CSS loader
(`getCustomPropertiesFromCSSFile$1`) swallows failures, resolving to an
empty mapping; the CSS, JSON and dynamic-module loaders used for
configured sources succeed exactly on readable, parseable input and
propagate the failure otherwise. -/
theorem c5_loader_amended :
    getCustomPropertiesFromCSSFileImport none = [] ∧
    (∀ t, getCustomPropertiesFromCSSFileImport (some t) = getCustomPropertiesFromRoot t) ∧
    (∀ t, getCustomPropertiesFromCSSFile (some t) =
      Except.ok (getCustomPropertiesFromRoot t)) ∧
    getCustomPropertiesFromCSSFile none = Except.error () ∧
    (∀ o, getCustomPropertiesFromJSONFile (some o) =
      Except.ok (getCustomPropertiesFromObject o)) ∧
    getCustomPropertiesFromJSONFile none = Except.error () ∧
    (∀ o, getCustomPropertiesFromJSFile (some o) =
      Except.ok (getCustomPropertiesFromObject o)) ∧
    getCustomPropertiesFromJSFile none = Except.error () :=
  ⟨rfl, fun _ => rfl, fun _ => rfl, rfl, fun _ => rfl, rfl, fun _ => rfl, rfl⟩

/-- Claim C6 is violated by the code: `Object.assign(await
customPropertiesPromise, ...)` mutates the shared memoized mapping, so
processing stylesheet `exA` (which declares `--x`) makes the later
validation of `exB` (which uses `var(--x)` without declaring it) pass,
while processing `exB` first reports it: the diagnostics of a stylesheet
depend on which stylesheets were processed before it. -/
theorem c6_shared_mapping_mutation :
    (ruleCallback [] exA).1 = [("--x", "1")] ∧
    lintRun [] [exA, exB] = [([], false), ([], false)] ∧
    lintRun [] [exB, exA] = [([unexpectedDiag "--x" "color"], false), ([], false)] :=
  ⟨rfl, rfl, rfl⟩

/-- Counterexample to claim C7: the regex `/^--[A-z][\w-]*$/` uses the
character class `[A-z]`, which also spans the six ASCII characters between
`Z` and `a`; the name `--_a`, whose third character `_` is not a letter,
is nevertheless captured into the mapping. -/
theorem c7_pattern_counterexample :
    customPropertyMatch "--_a" = true ∧
    Char.isAlpha '_' = false ∧
    getKey (getCustomPropertiesFromRoot (CSSTree.mk [] [⟨"--_a", "1", []⟩])) "--_a" =
      some "1" :=
  ⟨rfl, rfl, rfl⟩

/-- Claim C7 as amended: a declaration's property name is captured into
the mapping exactly when it matches `/^--[A-z][\w-]*$/`: two leading
dashes, one character with ASCII code between `A` and `z` inclusive (every
letter plus `[`, `\`, `]`, `^`, `_` and the backtick), then any run of
word characters or hyphens. -/
theorem c7_pattern_amended (p v : String) (ast : List VNode) :
    hasKey (getCustomPropertiesFromRoot (CSSTree.mk [] [⟨p, v, ast⟩])) p =
      customPropertyMatch p ∧
    (customPropertyMatch p = true ↔
      ∃ c rest, p.data = '-' :: '-' :: c :: rest ∧ 'A' ≤ c ∧ c ≤ 'z' ∧
        ∀ ch ∈ rest, isWordChar ch = true ∨ ch = '-') := by
  constructor
  · rw [gcpfr_mk]
    simp only [List.map_nil, List.foldl_nil]
    by_cases hc : customPropertyMatch p = true
    · simp [applyOwnDecls, hc, objectAssign, hasKey]
    · simp only [Bool.not_eq_true] at hc
      simp [applyOwnDecls, hc, hasKey]
  · constructor
    · intro h
      simp only [customPropertyMatch] at h
      split at h
      · rename_i c rest heq
        refine ⟨c, rest, heq, ?_, ?_, ?_⟩
        · have := (Bool.and_eq_true _ _).mp ((Bool.and_eq_true _ _).mp h).1
          exact of_decide_eq_true this.1
        · have := (Bool.and_eq_true _ _).mp ((Bool.and_eq_true _ _).mp h).1
          exact of_decide_eq_true this.2
        · intro ch hch
          have hall := ((Bool.and_eq_true _ _).mp h).2
          have := (List.all_eq_true.mp hall) ch hch
          rcases (Bool.or_eq_true _ _).mp this with hw | hd
          · exact Or.inl hw
          · exact Or.inr (by simpa using hd)
      · cases h
    · rintro ⟨c, rest, heq, h1, h2, h3⟩
      simp only [customPropertyMatch, heq]
      refine (Bool.and_eq_true _ _).mpr ⟨(Bool.and_eq_true _ _).mpr
        ⟨decide_eq_true h1, decide_eq_true h2⟩, List.all_eq_true.mpr ?_⟩
      intro ch hch
      rcases h3 ch hch with hw | hd
      · exact (Bool.or_eq_true _ _).mpr (Or.inl hw)
      · exact (Bool.or_eq_true _ _).mpr (Or.inr (by simpa using hd))

/-- Claim C8: extraction from a decoded JSON / loaded module object is the
shallow merge of its `customProperties` field and its `custom-properties`
field: a name present in only one field maps to that field's value, and a
name present in both maps to the `custom-properties` (second) field's
value. -/
theorem c8_object_extraction (a b : Mapping) (k : String) :
    (hasKey b k = true →
      getKey (getCustomPropertiesFromObject ⟨some a, some b⟩) k = getKey b k) ∧
    (hasKey b k = false →
      getKey (getCustomPropertiesFromObject ⟨some a, some b⟩) k = getKey a k) ∧
    getKey (getCustomPropertiesFromObject ⟨some a, none⟩) k = getKey a k ∧
    getKey (getCustomPropertiesFromObject ⟨none, some b⟩) k = getKey b k := by
  refine ⟨fun h => ?_, fun h => ?_, ?_, ?_⟩
  · show getKey (([] ++ a) ++ b) k = getKey b k
    exact getKey_append_right h _
  · show getKey (([] ++ a) ++ b) k = getKey a k
    rw [getKey_append_left h, List.nil_append]
  · show getKey (([] ++ a) ++ []) k = getKey a k
    rw [List.append_nil, List.nil_append]
  · rfl

/-- Witness for C8: `--n` defined in both fields takes the
`custom-properties` value; `--m` is in neither, exercising the
absent-key branch. -/
theorem c8_object_extraction_witness :
    (hasKey [("--n", "2")] "--n" = true ∧
      getKey (getCustomPropertiesFromObject ⟨some [("--n", "1")], some [("--n", "2")]⟩)
        "--n" = getKey [("--n", "2")] "--n") ∧
    (hasKey [("--n", "2")] "--m" = false ∧
      getKey (getCustomPropertiesFromObject ⟨some [("--n", "1")], some [("--n", "2")]⟩)
        "--m" = getKey [("--n", "1")] "--m") :=
  ⟨⟨rfl, (c8_object_extraction [("--n", "1")] [("--n", "2")] "--n").1 rfl⟩,
   ⟨rfl, (c8_object_extraction [("--n", "1")] [("--n", "2")] "--m").2.1 rfl⟩⟩

/-- Claim C9: a `var()` reference with an unknown primary name but at
least one fallback argument, none of which is itself a `var()` call,
produces no diagnostic at all: the non-`var` fallbacks are filtered out
before the recursive check and the mere presence of a fallback suppresses
the report. -/
theorem c9_nonvar_fallbacks_suppress (cp : Mapping) (prop name : String)
    (sep : VNode) (fbs : List VNode) (hk : hasKey cp name = false) (hne : fbs ≠ [])
    (hfb : ∀ f ∈ fbs, isVarFunction f = Except.ok false) :
    validateValueAST cp prop [VNode.func "var" (VNode.word name true :: sep :: fbs)] =
      ([], false) := by
  have hfil : filterVarFunctions ((sep :: fbs).drop 1) = Except.ok [] := by
    simp only [List.drop_succ_cons, List.drop_zero]
    exact filterVarFunctions_all_false hfb
  rw [validate_var_unknown_fb cp prop hk (sep :: fbs) [] []
    (by simp only [List.drop_succ_cons, List.drop_zero]; exact hne) hfil]
  simp [validateValueAST_nil]

/-- Witness for C9: `var(--unknown, red)` against the empty mapping
produces no diagnostic. -/
theorem c9_nonvar_fallbacks_suppress_witness :
    hasKey [] "--unknown" = false ∧
    validateValueAST [] "color"
      [VNode.func "var" [VNode.word "--unknown" true, VNode.punct ",",
        VNode.word "red" false]] = ([], false) :=
  ⟨rfl,
    c9_nonvar_fallbacks_suppress [] "color" "--unknown" (VNode.punct ",")
      [VNode.word "red" false] rfl (by simp)
      (fun f hf => by rcases List.mem_singleton.mp hf with rfl; rfl)⟩

/-- Claim C10: `isVarFunction` reads `node.nodes[0].isVariable`
unconditionally once the node is a function named `var`, so the embedding
must guard that indexing: a value containing `var()` with no argument
nodes reaches the error branch (thrown `TypeError`), while validation of
any value whose `var`-named functions all have at least one child never
errors. -/
theorem c10_var_function_empty_args (cp : Mapping) (prop : String) (l : List VNode)
    (hg : ∀ n ∈ l, Guarded n) :
    validateValueAST cp prop [VNode.func "var" []] = ([], true) ∧
    (validateValueAST cp prop l).2 = false :=
  ⟨rfl, validateGo_total cp prop _ l (Nat.le_succ _) hg⟩

/-- Witness for C10: the error branch at the concrete input `var()`, and
error-free validation of a guarded value. -/
theorem c10_var_function_empty_args_witness :
    validateValueAST [] "p" [VNode.func "var" []] = ([], true) ∧
    (validateValueAST [] "p" [VNode.word "x" false]).2 = false :=
  c10_var_function_empty_args [] "p" [VNode.word "x" false]
    (fun n hn => by rcases List.mem_singleton.mp hn with rfl; exact Guarded.word "x" false)

end ValueNoUnknownCustomProps
